import Mathlib

/-!
# SparseMatcher::Match

A shallow embedding of `SparseMatcher<KeypointSetT, MatcherT>::Match`
(`src/CPP/DenseCorrespondences/main_SparseMatches/SparseMatcher.hpp`), the
routine that enumerates the image pairs `(i, j)`, runs the 2-nearest-neighbour
query of image `j` against the index of image `i`, keeps the queries that pass
the distance-ratio test, and stores one match sequence per pair in a
`PairWiseMatches` table.

Conventions of the embedding

* `size_t` values are natural numbers; every `size_t` operation that can wrap is
  written with an explicit `% 2 ^ 64`.
* `int` values are integers; a conversion to `int` is the two's complement
  wrap `toInt32`, a conversion from `int` to `size_t` is `toSizeT`.
* distances and the distance ratio are exact rationals.
* reading a `std::vector` outside its bounds is undefined in the source; the
  embedding returns `none` there.
-/

namespace SparseMatcher

/-! ## Machine integers -/

/-- Conversion of an `int` to `size_t` (unsigned 64 bit): reduction modulo `2 ^ 64`. -/
def toSizeT (x : Int) : Nat := (x % 2 ^ 64).toNat

/-- Conversion of an integer value to `int` (signed 32 bit), two's complement. -/
def toInt32 (x : Int) : Int := (x + 2 ^ 31) % 2 ^ 32 - 2 ^ 31

/-- Subtraction of two `size_t` values, `a - b`, wrapping modulo `2 ^ 64`. -/
def sizeSub (a b : Nat) : Nat := (a % 2 ^ 64 + (2 ^ 64 - b % 2 ^ 64)) % 2 ^ 64

/-- Addition of two `size_t` values, wrapping modulo `2 ^ 64`. -/
def sizeAdd (a b : Nat) : Nat := (a + b) % 2 ^ 64

/-- Multiplication of two `size_t` values, wrapping modulo `2 ^ 64`. -/
def sizeMul (a b : Nat) : Nat := (a * b) % 2 ^ 64

/-- Modelled from the spec: `min`, which the header uses without declaring it. The spec
gives the windowed bound as `min(n, i+1+pairRadius)`; at line 97 the first argument is an
`int` and the second a `size_t`, so the comparison and the result are `size_t` (the `int`
is converted first), as for the C expression `a < b ? a : b`. -/
def minSizeT (a : Int) (b : Nat) : Nat := if toSizeT a < b then toSizeT a else b

/-- The value of `Square(x)`. -/
def Square (x : ℚ) : ℚ := x * x

/-! ## Lines 73-75: the size of the progress display -/

/-- The value of `iterations` (lines 73-75) for `n = vec_fileNames.size()`.

Line 74 multiplies in `size_t`, divides the product by `2.0` as a `double` and converts to
`int`; the product is even, so the quotient is the exact half whenever the product is
below `2 ^ 53`. Line 75 computes `(mPairRadius + 1) * mPairRadius / 2` in `int`, the
second summand in `size_t`, adds them in `size_t` and converts the sum to `int`. -/
def iterations (n : Nat) (mPairRadius : Int) : Int :=
  if mPairRadius = 0 then
    toInt32 ((sizeMul n (sizeSub n 1) / 2 : Nat) : Int)
  else
    toInt32 ((sizeAdd (toSizeT (Int.tdiv ((mPairRadius + 1) * mPairRadius) 2))
      (sizeMul (sizeSub (sizeSub n (toSizeT mPairRadius)) 1) (toSizeT mPairRadius)) : Nat) : Int)

/-! ## Lines 80, 96-102: the two loops -/

/-- The value of `pairLimit` (lines 96-97) for the left image `i`. -/
def pairLimit (n : Nat) (mPairRadius : Int) (i : Nat) : Int :=
  if mPairRadius = 0 then toInt32 (n : Int)
  else toInt32 ((minSizeT (toInt32 (n : Int))
    (sizeAdd (sizeAdd i 1) (toSizeT mPairRadius)) : Nat) : Int)

/-- The values that `j` takes in `for (int j = i + 1; j < pairLimit; ++j)` (line 102),
in the order of the sequential loop. -/
def innerRange (n : Nat) (mPairRadius : Int) (i : Nat) : List Int :=
  let j0 := toInt32 ((sizeAdd i 1 : Nat) : Int)
  (List.range (pairLimit n mPairRadius i - j0).toNat).map (fun (d : Nat) => j0 + (d : Int))

/-- The values that `i` takes in `for (size_t i = 0; i < vec_fileNames.size(); ++i)`
(line 80). -/
def outerRange (n : Nat) : List Nat := List.range n

/-- The key `make_pair(i, j)` of line 147, converted to the key type
`std::pair<size_t, size_t>` of the table. -/
def pairKey (i : Nat) (j : Int) : Nat × Nat := (i, toSizeT j)

/-- The keys handed to `insert`, in the order of the sequential loops. -/
def processedPairs (n : Nat) (mPairRadius : Int) : List (Nat × Nat) :=
  (outerRange n).flatMap (fun i => (innerRange n mPairRadius i).map (pairKey i))

/-! ## Data model -/

/-- A feature: the image coordinates that the coordinate deduplication compares. -/
structure Feature where
  x : ℚ
  y : ℚ
deriving DecidableEq, Repr

/-- Modelled from the spec: `IndMatch` (`openMVG/matching/indMatch.hpp` is not among the
sources), the spec's CandidateMatch, "a pair of feature indices (indexInLeftImage,
indexInRightImage)". -/
structure IndMatch where
  i : Nat
  j : Nat
deriving DecidableEq, Repr

/-- The table `PairWiseMatches`: a `std::map` from `(i, j)` to a match sequence, kept as
the list of its entries in increasing key order. -/
abbrev PairWiseMatches := List ((Nat × Nat) × List IndMatch)

/-- The members `map_Feat` and `map_Desc` (lines 157-159) after `loadData`; `D` is the
descriptor type. -/
structure LoadedData (D : Type) where
  map_Feat : Nat → List Feature
  map_Desc : Nat → List D

/-- The template parameter `MatcherT`, as far as `Match` uses it. `Build` receives the
descriptors of the left image and their number and gives a status and the built index
`M`; `SearchNeighbours` receives the index, the query descriptors, their number and the
number of neighbours, and gives a status, the array `vec_nIndice10` and the array
`vec_fDistance10`. -/
structure MatcherT (D M : Type) where
  Build : List D → Nat → Bool × M
  SearchNeighbours : M → List D → Nat → Nat → Bool × List Int × List ℚ

/-- The members `fDistRatio` and `mPairRadius` (lines 161-162). -/
structure Params where
  fDistRatio : ℚ
  mPairRadius : Int

/-! ## Lines 123-127: the ratio test -/

/-- Modelled from the spec: `NNdistanceRatio` (`openMVG/matching/matching_filters.hpp` is
not among the sources). Per the spec, each query `q` has `NN` consecutive distances
`d1 ≤ d2 ...`, and the rule is "accept q if d1 / d2 < ratioThreshold²", the output being
"the ordered subsequence of query indices that pass"; the threshold is the last
argument. The output is a `std::vector<int>`. -/
def NNdistanceRatio (dist : List ℚ) (NN : Nat) (fratio : ℚ) : List Int :=
  ((List.range (dist.length / NN)).filter
    (fun q => decide (dist.getD (q * NN) 0 / dist.getD (q * NN + 1) 0 < fratio))).map
    (fun (q : Nat) => (q : Int))

/-! ## Lines 129-134: the loop that builds the matches -/

/-- An element read by the loop: `vec_NNRatioIndexes[k]` or `vec_nIndice10[p]`. -/
inductive Read where
  | ratioIndex (k : Nat)
  | neighbour (p : Nat)
deriving DecidableEq, Repr

/-- The state of the loop of lines 129-134: `vec_FilteredMatches`, the number of
iterations executed and the elements read so far. -/
structure LoopState where
  vec_FilteredMatches : List IndMatch
  iters : Nat
  reads : List Read
deriving DecidableEq, Repr

/-- The loop `for (size_t k = 0; k < vec_NNRatioIndexes.size() - 1 &&
vec_NNRatioIndexes.size() > 0; ++k)` of lines 129-134, from the counter `k` on. The first
argument bounds the number of condition checks; `none` is an out-of-bounds read (or an
exhausted bound). -/
def matchLoop (vec_NNRatioIndexes vec_nIndice10 : List Int) :
    Nat → Nat → LoopState → Option LoopState
  | 0, _, _ => none
  | fuel + 1, k, st =>
    if k < sizeSub vec_NNRatioIndexes.length 1 ∧ vec_NNRatioIndexes.length > 0 then
      match vec_NNRatioIndexes[k]? with
      | none => none
      | some a =>
        let index := toSizeT a
        match vec_nIndice10[sizeMul index 2]? with
        | none => none
        | some v =>
          matchLoop vec_NNRatioIndexes vec_nIndice10 fuel (sizeAdd k 1)
            { vec_FilteredMatches := st.vec_FilteredMatches ++ [IndMatch.mk (toSizeT v) index]
              iters := st.iters + 1
              reads := st.reads ++ [Read.ratioIndex k, Read.neighbour (sizeMul index 2)] }
    else some st

/-- Lines 121 and 129-134: the loop run from `k = 0` on an empty `vec_FilteredMatches`. -/
def buildMatches (vec_NNRatioIndexes vec_nIndice10 : List Int) : Option LoopState :=
  matchLoop vec_NNRatioIndexes vec_nIndice10 (vec_NNRatioIndexes.length + 1) 0
    { vec_FilteredMatches := [], iters := 0, reads := [] }

/-! ## Lines 136-141: the two deduplications -/

/-- Modelled from the spec: `IndMatch::getDeduplicated` (not among the sources), the
identity dedup: "remove matches with a repeated (leftIndex, rightIndex) pair, keeping
first occurrence, preserving relative order of survivors". -/
def getDeduplicated : List IndMatch → List IndMatch
  | [] => []
  | m :: ms => m :: (getDeduplicated ms).filter (fun m' => decide (m' ≠ m))

/-- Modelled from the spec: the coordinate dedup of `IndMatchDecorator` (not among the
sources), from the matches kept so far: a match stays when neither its left coordinate
nor its right coordinate is that of a match already kept ("keep the first-encountered
match in sequence order; all others sharing a coordinate are dropped"). -/
def coordDedupFrom (featureSetI featureSetJ : List Feature) :
    List IndMatch → List IndMatch → List IndMatch
  | kept, [] => kept
  | kept, m :: ms =>
    if kept.any (fun m' => decide (featureSetI[m'.i]? = featureSetI[m.i]?) ||
        decide (featureSetJ[m'.j]? = featureSetJ[m.j]?)) then
      coordDedupFrom featureSetI featureSetJ kept ms
    else coordDedupFrom featureSetI featureSetJ (kept ++ [m]) ms

/-- Lines 140-141: the coordinate dedup of a match sequence. -/
def coordDedup (featureSetI featureSetJ : List Feature) (ms : List IndMatch) :
    List IndMatch :=
  coordDedupFrom featureSetI featureSetJ [] ms

/-! ## Line 147: the table -/

/-- The order of the keys of the table, `operator<` of `std::pair<size_t, size_t>`. -/
def keyLt (a b : Nat × Nat) : Prop := a.1 < b.1 ∨ (a.1 = b.1 ∧ a.2 < b.2)

instance (a b : Nat × Nat) : Decidable (keyLt a b) := by
  unfold keyLt; exact inferInstance

/-- The entry of key `k`, as `std::map::find`. -/
def find (k : Nat × Nat) : PairWiseMatches → Option (List IndMatch)
  | [] => none
  | (k', v) :: t => if k = k' then some v else find k t

/-- The placement of a new entry at its position in key order. -/
def place (k : Nat × Nat) (v : List IndMatch) : PairWiseMatches → PairWiseMatches
  | [] => [(k, v)]
  | (k', v') :: t => if keyLt k k' then (k, v) :: (k', v') :: t else (k', v') :: place k v t

/-- The call `map_PutativesMatches.insert(make_pair(k, v))` of line 147: `std::map::insert`
leaves the table as it is when the key is present and adds the entry otherwise. -/
def insert (k : Nat × Nat) (v : List IndMatch) (T : PairWiseMatches) : PairWiseMatches :=
  if (find k T).isSome then T else place k v T

/-- The keys of a table, in table order. -/
def keys (T : PairWiseMatches) : List (Nat × Nat) := T.map Prod.fst

/-! ## Lines 65-153: `Match` -/

/-- Lines 122-127: the indices that `NNdistanceRatio` gives for the distances
`vec_fDistance10`, with `NNN__ = 2` and the threshold `Square(fDistRatio)`. -/
def ratioTest (p : Params) (vec_fDistance10 : List ℚ) : List Int :=
  NNdistanceRatio vec_fDistance10 2 (Square p.fDistRatio)

/-- What one run of the body of the inner loop computes before the insertion (lines
104-141): the status of `SearchNeighbours`, the state of the match-building loop and the
sequence after both deduplications. -/
structure PairUnit where
  searchOk : Bool
  loop : LoopState
  matches_ : List IndMatch
deriving DecidableEq, Repr

/-- Lines 104-141 for the left image `i`, its built index `matcher10` and the right image
`j`. The status that `SearchNeighbours` returns is not looked at by the source. -/
def pairUnit {D M : Type} (p : Params) (mt : MatcherT D M) (d : LoadedData D)
    (matcher10 : M) (i : Nat) (j : Int) : Option PairUnit :=
  let featureSetI := d.map_Feat i
  let featureSetJ := d.map_Feat j.toNat
  let tab1 := d.map_Desc j.toNat
  let r := mt.SearchNeighbours matcher10 tab1 featureSetJ.length 2
  let vec_nIndice10 := r.2.1
  let vec_fDistance10 := r.2.2
  let vec_NNRatioIndexes := ratioTest p vec_fDistance10
  (buildMatches vec_NNRatioIndexes vec_nIndice10).map (fun st =>
    { searchOk := r.1
      loop := st
      matches_ := coordDedup featureSetI featureSetJ (getDeduplicated st.vec_FilteredMatches) })

/-- The state that `Match` changes: the table and the number of increments of the
progress display (line 150). -/
structure MatchState where
  map_PutativesMatches : PairWiseMatches
  progress : Nat
deriving DecidableEq, Repr

/-- One run of the body of the inner loop (lines 104-150). -/
def innerStep {D M : Type} (p : Params) (mt : MatcherT D M) (d : LoadedData D)
    (matcher10 : M) (i : Nat) (s : MatchState) (j : Int) : Option MatchState :=
  (pairUnit p mt d matcher10 i j).map (fun u =>
    { map_PutativesMatches := insert (pairKey i j) u.matches_ s.map_PutativesMatches
      progress := s.progress + 1 })

/-- One run of the body of the outer loop (lines 82-152) for the left image `i`, the
units of the inner loop being run in the order `sched i` gives to them. The status that
`Build` returns is not looked at by the source. -/
def outerStep {D M : Type} (p : Params) (mt : MatcherT D M) (d : LoadedData D)
    (n : Nat) (sched : Nat → List Int → List Int) (s : MatchState) (i : Nat) :
    Option MatchState :=
  let featureSetI_Size := (d.map_Feat i).length
  let matcher10 := (mt.Build (d.map_Desc i) featureSetI_Size).2
  (sched i (innerRange n p.mPairRadius i)).foldlM (innerStep p mt d matcher10 i) s

/-- The loops of `Match` (lines 80-152) over `n = vec_fileNames.size()` images from the
table `T`, the units of each inner loop being run in the order `sched` gives to them (the
inner loop is an OpenMP parallel loop whose insertions are in a critical section). -/
def MatchSched {D M : Type} (p : Params) (mt : MatcherT D M) (d : LoadedData D)
    (n : Nat) (sched : Nat → List Int → List Int) (T : PairWiseMatches) :
    Option MatchState :=
  (outerRange n).foldlM (outerStep p mt d n sched) { map_PutativesMatches := T, progress := 0 }

/-- The routine `Match` (lines 65-153) with the inner loop run sequentially. -/
def Match {D M : Type} (p : Params) (mt : MatcherT D M) (d : LoadedData D)
    (n : Nat) (T : PairWiseMatches) : Option MatchState :=
  MatchSched p mt d n (fun _ js => js) T

/-! ## Auxiliary definitions for the statements -/

/-- The index that `Build` gives for the left image `i` (lines 88-94). -/
def builtIndex {D M : Type} (mt : MatcherT D M) (d : LoadedData D) (i : Nat) : M :=
  (mt.Build (d.map_Desc i) (d.map_Feat i).length).2

/-- In every query that `Match` makes on the loaded data `d` (the index of an image `i`
queried with the descriptors of an image `j`), the two arrays that `SearchNeighbours`
fills are parallel (one index per distance) and of a size that a `size_t` holds. -/
def MatcherT.ParallelArrays {D M : Type} (mt : MatcherT D M) (d : LoadedData D) : Prop :=
  ∀ (i j : Nat),
    (mt.SearchNeighbours (builtIndex mt d i) (d.map_Desc j) (d.map_Feat j).length 2).2.2.length
      ≤ (mt.SearchNeighbours (builtIndex mt d i) (d.map_Desc j) (d.map_Feat j).length 2).2.1.length
    ∧ (mt.SearchNeighbours (builtIndex mt d i) (d.map_Desc j) (d.map_Feat j).length
        2).2.1.length < 2 ^ 64

/-- The matcher `mt` with both statuses replaced by `true`. -/
def MatcherT.reportSuccess {D M : Type} (mt : MatcherT D M) : MatcherT D M where
  Build := fun ds c => (true, (mt.Build ds c).2)
  SearchNeighbours := fun m q c NN => (true, (mt.SearchNeighbours m q c NN).2)

/-- The sequence that the unit `(i, j)` hands to `insert`, the empty sequence standing for
an undefined unit. -/
def unitValue {D M : Type} (p : Params) (mt : MatcherT D M) (d : LoadedData D)
    (i : Nat) (j : Int) : List IndMatch :=
  ((pairUnit p mt d (builtIndex mt d i) i j).map (fun u => u.matches_)).getD []

/-- The entries handed to `insert` by the units of the left image `i`, in the order
`js`. -/
def unitsOfImage {D M : Type} (p : Params) (mt : MatcherT D M) (d : LoadedData D)
    (i : Nat) (js : List Int) : PairWiseMatches :=
  js.map (fun j => (pairKey i j, unitValue p mt d i j))

/-- The entries handed to `insert` during a run, in execution order. -/
def unitsOfRun {D M : Type} (p : Params) (mt : MatcherT D M) (d : LoadedData D)
    (n : Nat) (sched : Nat → List Int → List Int) (is : List Nat) : PairWiseMatches :=
  is.flatMap (fun i => unitsOfImage p mt d i (sched i (innerRange n p.mPairRadius i)))

/-- The successive insertion of a list of entries. -/
def insertAll (us : PairWiseMatches) (T : PairWiseMatches) : PairWiseMatches :=
  us.foldl (fun T u => insert u.1 u.2 T) T

/-- The exclusive upper bound of the right images of the left image `i`, over the natural
numbers: `n`, or `min(n, i + 1 + r)` for a positive radius `r`. -/
def window (n r i : Nat) : Nat := if r = 0 then n else min n (i + 1 + r)

/-- A matcher that refuses to work on fewer descriptors than neighbours asked for: `Build`
keeps the descriptors and reports whether there are at least 2, `SearchNeighbours` reports
a failure and leaves both arrays empty when the index holds fewer than `NN` descriptors,
and otherwise gives every query the neighbours `0` and `1` at the squared distances `1`
and `4`. -/
def strictMatcher : MatcherT Unit (List Unit) where
  Build := fun ds c => (decide (2 ≤ c), ds.take c)
  SearchNeighbours := fun m _ c NN =>
    if m.length < NN then (false, [], [])
    else (true, (List.replicate c [(0 : Int), 1]).flatten,
      (List.replicate c [(1 : ℚ), 4]).flatten)

/-- Loaded data in which image `k` has `counts k` features and descriptors. -/
def dataOfCounts (counts : Nat → Nat) : LoadedData Unit where
  map_Feat := fun k => (List.range (counts k)).map (fun (t : Nat) => Feature.mk (t : ℚ) (t : ℚ))
  map_Desc := fun k => List.replicate (counts k) ()

/-! ## Machine integers within range -/

theorem toSizeT_ofNat (x : Nat) (h : x < 2 ^ 64) : toSizeT (x : Int) = x := by
  unfold toSizeT
  omega

theorem toSizeT_of_nonneg (x : Int) (h0 : 0 ≤ x) (h : x < 2 ^ 64) : toSizeT x = x.toNat := by
  unfold toSizeT
  omega

theorem toInt32_ofNat (x : Nat) (h : x < 2 ^ 31) : toInt32 (x : Int) = (x : Int) := by
  unfold toInt32
  omega

theorem sizeAdd_small (a b : Nat) (h : a + b < 2 ^ 64) : sizeAdd a b = a + b := by
  unfold sizeAdd; omega

theorem sizeMul_small (a b : Nat) (h : a * b < 2 ^ 64) : sizeMul a b = a * b := by
  unfold sizeMul; exact Nat.mod_eq_of_lt h

theorem sizeSub_small (a b : Nat) (hb : b ≤ a) (ha : a < 2 ^ 64) : sizeSub a b = a - b := by
  unfold sizeSub
  omega

/-- Within the range of `int`, `pairLimit` is the bound `window`. -/
theorem pairLimit_eq (n : Nat) (r : Int) (i : Nat) (hn : n < 2 ^ 31) (hi : i < n)
    (hr0 : 0 ≤ r) (hr : r < 2 ^ 31) :
    pairLimit n r i = (window n r.toNat i : Int) := by
  unfold pairLimit window
  by_cases h0 : r = 0
  · subst h0
    simp only [if_true, Int.toNat_zero]
    exact toInt32_ofNat n hn
  · have hrn : r.toNat ≠ 0 := by omega
    rw [if_neg h0, if_neg hrn]
    rw [toInt32_ofNat n hn, toSizeT_of_nonneg r hr0 (by omega)]
    have hrt : r.toNat < 2 ^ 31 := by omega
    rw [sizeAdd_small i 1 (by omega), sizeAdd_small (i + 1) r.toNat (by omega)]
    unfold minSizeT
    rw [toSizeT_ofNat n (by omega)]
    have hmin : (if n < i + 1 + r.toNat then n else i + 1 + r.toNat) = min n (i + 1 + r.toNat) := by
      split <;> omega
    rw [hmin]
    exact toInt32_ofNat _ (by omega)

/-- Within the range of `int`, the inner loop runs `j` over `i + 1, ..., window - 1`. -/
theorem innerRange_eq (n : Nat) (r : Int) (i : Nat) (hn : n < 2 ^ 31) (hi : i < n)
    (hr0 : 0 ≤ r) (hr : r < 2 ^ 31) :
    innerRange n r i =
      (List.range (window n r.toNat i - (i + 1))).map (fun t => ((i + 1 + t : Nat) : Int)) := by
  unfold innerRange
  rw [pairLimit_eq n r i hn hi hr0 hr, sizeAdd_small i 1 (by omega),
    toInt32_ofNat (i + 1) (by omega)]
  have hlen : ((window n r.toNat i : Int) - ((i + 1 : Nat) : Int)).toNat
      = window n r.toNat i - (i + 1) := by
    omega
  simp only [hlen]
  apply List.map_congr_left
  intro t _
  push_cast; ring

theorem window_le (n r i : Nat) : window n r i ≤ n := by
  unfold window; split <;> omega

/-- Within the range of `int`, the keys of the units of the left image `i`. -/
theorem innerKeys_eq (n : Nat) (r : Int) (i : Nat) (hn : n < 2 ^ 31) (hi : i < n)
    (hr0 : 0 ≤ r) (hr : r < 2 ^ 31) :
    (innerRange n r i).map (pairKey i) =
      (List.range (window n r.toNat i - (i + 1))).map (fun t => (i, i + 1 + t)) := by
  rw [innerRange_eq n r i hn hi hr0 hr, List.map_map]
  apply List.map_congr_left
  intro t ht
  have htl := List.mem_range.1 ht
  have hw := window_le n r.toNat i
  show pairKey i ((i + 1 + t : Nat) : Int) = (i, i + 1 + t)
  unfold pairKey
  rw [toSizeT_ofNat _ (by omega)]

/-- Within the range of `int`, the keys handed to `insert` during a run. -/
theorem processedPairs_eq (n : Nat) (r : Int) (hn : n < 2 ^ 31)
    (hr0 : 0 ≤ r) (hr : r < 2 ^ 31) :
    processedPairs n r =
      (List.range n).flatMap (fun i =>
        (List.range (window n r.toNat i - (i + 1))).map (fun t => (i, i + 1 + t))) := by
  unfold processedPairs outerRange
  apply List.flatMap_congr
  intro i hi
  exact innerKeys_eq n r i hn (List.mem_range.1 hi) hr0 hr

theorem mem_processedPairs (n : Nat) (r : Int) (hn : n < 2 ^ 31)
    (hr0 : 0 ≤ r) (hr : r < 2 ^ 31) (i j : Nat) :
    (i, j) ∈ processedPairs n r ↔ i < j ∧ j < n ∧ (0 < r → (j : Int) ≤ i + r) := by
  rw [processedPairs_eq n r hn hr0 hr]
  simp only [List.mem_flatMap, List.mem_range, List.mem_map, Prod.mk.injEq]
  unfold window
  constructor
  · rintro ⟨a, ha, t, ht, rfl, rfl⟩
    refine ⟨by omega, ?_, ?_⟩
    · split at ht <;> omega
    · intro hpos
      rw [if_neg (by omega)] at ht
      omega
  · rintro ⟨h1, h2, h3⟩
    refine ⟨i, by omega, j - (i + 1), ?_, rfl, by omega⟩
    split
    · omega
    · have := h3 (by omega)
      omega

theorem nodup_processedPairs (n : Nat) (r : Int) (hn : n < 2 ^ 31)
    (hr0 : 0 ≤ r) (hr : r < 2 ^ 31) : (processedPairs n r).Nodup := by
  rw [processedPairs_eq n r hn hr0 hr]
  rw [List.nodup_flatMap]
  constructor
  · intro i _
    apply List.Nodup.map
    · intro a b h
      simp only [Prod.mk.injEq] at h
      omega
    · exact List.nodup_range _
  · apply List.Pairwise.imp _ (List.nodup_range n)
    intro a b hab
    unfold Function.onFun List.Disjoint
    intro x hx hy
    simp only [List.mem_map] at hx hy
    obtain ⟨t, _, rfl⟩ := hx
    obtain ⟨t', _, h⟩ := hy
    simp only [Prod.mk.injEq] at h
    exact hab h.1.symm

/-! ## The table -/

theorem find_place_ne (k k' : Nat × Nat) (v : List IndMatch) (T : PairWiseMatches)
    (h : k ≠ k') : find k (place k' v T) = find k T := by
  induction T with
  | nil => simp [place, find, h]
  | cons e t ih =>
    obtain ⟨k'', v''⟩ := e
    unfold place
    split
    · simp [find, h]
    · simp only [find]
      rw [ih]

theorem find_place_self (k : Nat × Nat) (v : List IndMatch) (T : PairWiseMatches)
    (h : find k T = none) : find k (place k v T) = some v := by
  induction T with
  | nil => simp [place, find]
  | cons e t ih =>
    obtain ⟨k'', v''⟩ := e
    unfold find at h
    split at h
    · exact absurd h (by simp)
    · rename_i hne
      unfold place
      split
      · simp [find]
      · simp only [find, if_neg hne]
        exact ih h

theorem length_place (k : Nat × Nat) (v : List IndMatch) (T : PairWiseMatches) :
    (place k v T).length = T.length + 1 := by
  induction T with
  | nil => simp [place]
  | cons e t ih =>
    obtain ⟨k'', v''⟩ := e
    unfold place
    split
    · simp
    · simp [ih]

/-- The entry of a key after an insertion: an entry that is present stays, a new entry
appears only under the inserted key. -/
theorem find_insert (k k' : Nat × Nat) (v : List IndMatch) (T : PairWiseMatches) :
    find k (insert k' v T) =
      match find k T with
      | some w => some w
      | none => if k = k' then some v else none := by
  unfold insert
  by_cases hp : (find k' T).isSome
  · rw [if_pos hp]
    cases hk : find k T with
    | some w => rfl
    | none =>
      have : k ≠ k' := by
        intro e; subst e; rw [hk] at hp; simp at hp
      simp [this]
  · rw [if_neg hp]
    have hnone : find k' T = none := by
      cases h : find k' T with
      | none => rfl
      | some w => rw [h] at hp; simp at hp
    by_cases e : k = k'
    · subst e
      rw [find_place_self k v T hnone, hnone]; simp
    · rw [find_place_ne k k' v T e]
      cases find k T <;> simp [e]

theorem length_insert (k : Nat × Nat) (v : List IndMatch) (T : PairWiseMatches) :
    (insert k v T).length = if (find k T).isSome then T.length else T.length + 1 := by
  unfold insert
  split
  · rfl
  · exact length_place k v T

theorem mem_keys_iff (k : Nat × Nat) (T : PairWiseMatches) :
    k ∈ keys T ↔ (find k T).isSome := by
  induction T with
  | nil => simp [keys, find]
  | cons e t ih =>
    obtain ⟨k'', v''⟩ := e
    unfold keys at ih ⊢
    simp only [List.map_cons, List.mem_cons, find]
    by_cases h : k = k''
    · simp [h]
    · simp [h, ih]

theorem insertAll_nil (T : PairWiseMatches) : insertAll [] T = T := rfl

theorem insertAll_cons (u : (Nat × Nat) × List IndMatch) (us T : PairWiseMatches) :
    insertAll (u :: us) T = insertAll us (insert u.1 u.2 T) := rfl

theorem insertAll_append (us vs T : PairWiseMatches) :
    insertAll (us ++ vs) T = insertAll vs (insertAll us T) := by
  unfold insertAll; exact List.foldl_append _ _ _ _

/-- The entry of a key after a sequence of insertions: the entry already in the table, or
else that of the first inserted entry with this key. -/
theorem find_insertAll (k : Nat × Nat) (us T : PairWiseMatches) :
    find k (insertAll us T) =
      match find k T with
      | some w => some w
      | none => find k us := by
  induction us generalizing T with
  | nil => rw [insertAll_nil]; cases find k T <;> rfl
  | cons u us ih =>
    obtain ⟨k', v⟩ := u
    rw [insertAll_cons, ih, find_insert]
    cases hk : find k T with
    | some w => rfl
    | none =>
      simp only [find]
      by_cases e : k = k'
      · simp [e]
      · simp [e]

theorem length_insertAll (us T : PairWiseMatches) (hnd : (keys us).Nodup)
    (hdis : ∀ k ∈ keys us, find k T = none) :
    (insertAll us T).length = T.length + us.length := by
  induction us generalizing T with
  | nil => simp [insertAll_nil]
  | cons u us ih =>
    obtain ⟨k', v⟩ := u
    have hnd2 : k' ∉ keys us ∧ (keys us).Nodup := by
      simpa [keys] using hnd
    rw [insertAll_cons, ih _ hnd2.2]
    · rw [length_insert, hdis k' (by simp [keys])]
      simp; omega
    · intro k hk
      rw [find_insert, hdis k (by simp [keys] at hk ⊢; right; exact hk)]
      have : k ≠ k' := by
        intro e; subst e; exact hnd2.1 hk
      simp [this]

/-! ### Insertions of different keys commute -/

theorem keyLt_trichotomy (a b : Nat × Nat) (h : a ≠ b) : (keyLt a b ∧ ¬ keyLt b a) ∨
    (keyLt b a ∧ ¬ keyLt a b) := by
  obtain ⟨a1, a2⟩ := a
  obtain ⟨b1, b2⟩ := b
  have h' : a1 ≠ b1 ∨ a2 ≠ b2 := by
    by_contra hc
    push_neg at hc
    exact h (by rw [hc.1, hc.2])
  unfold keyLt
  simp only
  omega

theorem keyLt_trans (a b c : Nat × Nat) (h1 : keyLt a b) (h2 : keyLt b c) : keyLt a c := by
  unfold keyLt at *
  omega

theorem place_comm (k1 k2 : Nat × Nat) (v1 v2 : List IndMatch) (T : PairWiseMatches)
    (h : k1 ≠ k2) : place k1 v1 (place k2 v2 T) = place k2 v2 (place k1 v1 T) := by
  induction T with
  | nil =>
    rcases keyLt_trichotomy k1 k2 h with ⟨ha, hb⟩ | ⟨ha, hb⟩
    · simp [place, ha, hb]
    · simp [place, ha, hb]
  | cons e t ih =>
    obtain ⟨k, v⟩ := e
    by_cases c1 : keyLt k1 k <;> by_cases c2 : keyLt k2 k
    · rcases keyLt_trichotomy k1 k2 h with ⟨ha, hb⟩ | ⟨ha, hb⟩
      · simp [place, c1, c2, ha, hb]
      · simp [place, c1, c2, ha, hb]
    · have hb : ¬ keyLt k2 k1 := fun hh => c2 (keyLt_trans _ _ _ hh c1)
      simp [place, c1, c2, hb]
    · have hb : ¬ keyLt k1 k2 := fun hh => c1 (keyLt_trans _ _ _ hh c2)
      simp [place, c1, c2, hb]
    · simp [place, c1, c2, ih]

theorem insert_comm (k1 k2 : Nat × Nat) (v1 v2 : List IndMatch) (T : PairWiseMatches)
    (h : k1 ≠ k2) : insert k1 v1 (insert k2 v2 T) = insert k2 v2 (insert k1 v1 T) := by
  have f12 : find k1 (place k2 v2 T) = find k1 T := find_place_ne k1 k2 v2 T h
  have f21 : find k2 (place k1 v1 T) = find k2 T := find_place_ne k2 k1 v1 T (Ne.symm h)
  unfold insert
  by_cases p1 : (find k1 T).isSome <;> by_cases p2 : (find k2 T).isSome
  · simp [p1, p2]
  · simp [p1, p2, f12]
  · simp [p1, p2, f21]
  · simp [p1, p2, f12, f21, place_comm k1 k2 v1 v2 T h]

/-- The table after a sequence of insertions with pairwise different keys does not depend
on the order of the insertions. -/
theorem insertAll_perm (us vs T : PairWiseMatches) (hp : us.Perm vs)
    (hnd : (keys us).Nodup) : insertAll us T = insertAll vs T := by
  unfold insertAll
  apply List.Perm.foldl_eq' hp
  intro x hx y hy z
  by_cases e : x.1 = y.1
  · have hxy : x = y := by
      have hinj := List.inj_on_of_nodup_map hnd
      exact hinj hx hy e
    rw [hxy]
  · exact (insert_comm y.1 x.1 y.2 x.2 z (Ne.symm e)).symm ▸ rfl

/-! ## The loop that builds the matches -/

/-- When its condition fails the loop stops in the state it is in. -/
theorem matchLoop_zero_iters (idx nn : List Int) (fuel k : Nat) (st : LoopState)
    (h : ¬ (k < sizeSub idx.length 1 ∧ idx.length > 0)) :
    matchLoop idx nn (fuel + 1) k st = some st := by
  rw [matchLoop, if_neg h]

/-- The loop from the counter `k` on: it returns, having appended one match for each of the
accepted indices `k, ..., m - 2`. -/
theorem matchLoop_spec (idx nn : List Int) (hm : idx.length < 2 ^ 64)
    (hv : ∀ a ∈ idx.dropLast, sizeMul (toSizeT a) 2 < nn.length) :
    ∀ (fuel k : Nat) (st : LoopState), k + 1 ≤ idx.length → idx.length - k ≤ fuel →
      ∃ st', matchLoop idx nn fuel k st = some st' ∧
        st'.vec_FilteredMatches = st.vec_FilteredMatches ++
          ((idx.drop k).dropLast.map (fun a =>
            IndMatch.mk (toSizeT (nn.getD (sizeMul (toSizeT a) 2) 0)) (toSizeT a))) ∧
        st'.iters = st.iters + (idx.length - 1 - k) := by
  intro fuel
  induction fuel with
  | zero => intro k st h1 h2; omega
  | succ fuel ih =>
    intro k st h1 h2
    have hsub : sizeSub idx.length 1 = idx.length - 1 := sizeSub_small _ _ (by omega) hm
    by_cases hk : k + 1 < idx.length
    · have hcond : k < sizeSub idx.length 1 ∧ idx.length > 0 := by
        rw [hsub]; omega
      have hklt : k < idx.length := by omega
      have hdrop : idx.drop k = idx[k] :: idx.drop (k + 1) := by
        exact List.drop_eq_getElem_cons hklt
      have hne : idx.drop (k + 1) ≠ [] := by
        intro e
        have := congrArg List.length e
        simp at this; omega
      have hdl : (idx.drop k).dropLast = idx[k] :: (idx.drop (k + 1)).dropLast := by
        rw [hdrop]
        cases hd : idx.drop (k + 1) with
        | nil => exact absurd hd hne
        | cons b bs => rfl
      have hmem : idx[k] ∈ idx.dropLast := by
        rw [List.dropLast_eq_take]
        rw [List.mem_take_iff_getElem]
        exact ⟨k, by omega, by simp⟩
      have hnn := hv _ hmem
      rw [matchLoop, if_pos hcond]
      have hget : idx[k]? = some idx[k] := List.getElem?_eq_getElem hklt
      have hget2 : nn[sizeMul (toSizeT idx[k]) 2]? = some nn[sizeMul (toSizeT idx[k]) 2] :=
        List.getElem?_eq_getElem hnn
      simp only [hget, hget2]
      rw [sizeAdd_small k 1 (by omega)]
      obtain ⟨st', e1, e2, e3⟩ := ih (k + 1)
        { vec_FilteredMatches := st.vec_FilteredMatches ++
            [IndMatch.mk (toSizeT nn[sizeMul (toSizeT idx[k]) 2]) (toSizeT idx[k])]
          iters := st.iters + 1
          reads := st.reads ++ [Read.ratioIndex k, Read.neighbour (sizeMul (toSizeT idx[k]) 2)] }
        (by omega) (by omega)
      refine ⟨st', e1, ?_, ?_⟩
      · rw [e2, hdl]
        simp only [List.map_cons, List.append_assoc, List.singleton_append]
        rw [List.getD_eq_getElem _ _ hnn]
      · rw [e3]; simp only; omega
    · have hcond : ¬ (k < sizeSub idx.length 1 ∧ idx.length > 0) := by
        rw [hsub]; omega
      rw [matchLoop_zero_iters idx nn fuel k st hcond]
      refine ⟨st, rfl, ?_, ?_⟩
      · have hlen : (idx.drop k).length = 1 := by simp; omega
        have : (idx.drop k).dropLast = [] := by
          match hd : idx.drop k, hlen with
          | [b], _ => rfl
        rw [this]; simp
      · omega

/-- The loop on a non-empty list of accepted indices: it returns, having appended one
match for every accepted index but the last. -/
theorem buildMatches_spec (idx nn : List Int) (hne : idx ≠ []) (hm : idx.length < 2 ^ 64)
    (hv : ∀ a ∈ idx.dropLast, sizeMul (toSizeT a) 2 < nn.length) :
    ∃ st, buildMatches idx nn = some st ∧
      st.vec_FilteredMatches = idx.dropLast.map (fun a =>
        IndMatch.mk (toSizeT (nn.getD (sizeMul (toSizeT a) 2) 0)) (toSizeT a)) ∧
      st.iters = idx.length - 1 := by
  have hpos : 0 < idx.length := List.length_pos.2 hne
  obtain ⟨st, e1, e2, e3⟩ := matchLoop_spec idx nn hm hv (idx.length + 1) 0
    { vec_FilteredMatches := [], iters := 0, reads := [] } (by omega) (by omega)
  refine ⟨st, e1, ?_, ?_⟩
  · rw [e2]; simp
  · rw [e3]; simp

/-- The loop on an empty list of accepted indices. -/
theorem buildMatches_nil (nn : List Int) :
    buildMatches [] nn = some { vec_FilteredMatches := [], iters := 0, reads := [] } := by
  unfold buildMatches
  rw [matchLoop_zero_iters]
  simp

theorem buildMatches_isSome (idx nn : List Int) (hm : idx.length < 2 ^ 64)
    (hv : ∀ a ∈ idx.dropLast, sizeMul (toSizeT a) 2 < nn.length) :
    ∃ st, buildMatches idx nn = some st := by
  by_cases hne : idx = []
  · subst hne; exact ⟨_, buildMatches_nil nn⟩
  · obtain ⟨st, e, _⟩ := buildMatches_spec idx nn hne hm hv
    exact ⟨st, e⟩

/-! ## The ratio test -/

theorem mem_NNdistanceRatio (dist : List ℚ) (NN : Nat) (t : ℚ) (a : Int) :
    a ∈ NNdistanceRatio dist NN t ↔
      ∃ q : Nat, a = q ∧ q < dist.length / NN ∧
        dist.getD (q * NN) 0 / dist.getD (q * NN + 1) 0 < t := by
  unfold NNdistanceRatio
  simp only [List.mem_map, List.mem_filter, List.mem_range, decide_eq_true_eq]
  constructor
  · rintro ⟨q, ⟨h1, h2⟩, rfl⟩; exact ⟨q, rfl, h1, h2⟩
  · rintro ⟨q, rfl, h1, h2⟩; exact ⟨q, ⟨h1, h2⟩, rfl⟩

theorem length_NNdistanceRatio_le (dist : List ℚ) (NN : Nat) (t : ℚ) :
    (NNdistanceRatio dist NN t).length ≤ dist.length / NN := by
  unfold NNdistanceRatio
  rw [List.length_map]
  calc _ ≤ (List.range (dist.length / NN)).length := List.length_filter_le _ _
    _ = _ := List.length_range _

theorem ratioTest_valid (p : Params) (dist : List ℚ) (nn : List Int)
    (hle : dist.length ≤ nn.length) (hlt : nn.length < 2 ^ 64) :
    (ratioTest p dist).length < 2 ^ 64 ∧
    ∀ a ∈ (ratioTest p dist).dropLast, sizeMul (toSizeT a) 2 < nn.length := by
  have hlen := length_NNdistanceRatio_le dist 2 (Square p.fDistRatio)
  constructor
  · unfold ratioTest; omega
  · intro a ha
    have ha' : a ∈ ratioTest p dist := List.mem_of_mem_dropLast ha
    unfold ratioTest at ha'
    obtain ⟨q, rfl, hq, _⟩ := (mem_NNdistanceRatio _ _ _ _).1 ha'
    rw [toSizeT_ofNat q (by omega), sizeMul_small q 2 (by omega)]
    omega

/-- With parallel arrays the loop reads inside `vec_nIndice10`, so the unit is defined. -/
theorem pairUnit_isSome {D M : Type} (p : Params) (mt : MatcherT D M) (d : LoadedData D)
    (hmt : mt.ParallelArrays d) (i : Nat) (j : Int) :
    ∃ u, pairUnit p mt d (builtIndex mt d i) i j = some u := by
  obtain ⟨hle, hlt⟩ := hmt i j.toNat
  obtain ⟨h1, h2⟩ := ratioTest_valid p _ _ hle hlt
  obtain ⟨st, hst⟩ := buildMatches_isSome _ _ h1 h2
  unfold pairUnit
  simp only [hst]
  exact ⟨_, rfl⟩

theorem innerStep_eq {D M : Type} (p : Params) (mt : MatcherT D M) (d : LoadedData D)
    (hmt : mt.ParallelArrays d) (i : Nat) (s : MatchState) (j : Int) :
    innerStep p mt d (builtIndex mt d i) i s j =
      some { map_PutativesMatches :=
               insert (pairKey i j) (unitValue p mt d i j) s.map_PutativesMatches
             progress := s.progress + 1 } := by
  obtain ⟨u, hu⟩ := pairUnit_isSome p mt d hmt i j
  unfold innerStep unitValue
  rw [hu]
  rfl

theorem innerLoop_eq {D M : Type} (p : Params) (mt : MatcherT D M) (d : LoadedData D)
    (hmt : mt.ParallelArrays d) (i : Nat) (js : List Int) (s : MatchState) :
    js.foldlM (innerStep p mt d (builtIndex mt d i) i) s =
      some { map_PutativesMatches := insertAll (unitsOfImage p mt d i js) s.map_PutativesMatches
             progress := s.progress + js.length } := by
  induction js generalizing s with
  | nil => simp [unitsOfImage, insertAll_nil]
  | cons j js ih =>
    rw [List.foldlM_cons, innerStep_eq p mt d hmt]
    simp only [Option.some_bind, Option.bind_eq_bind]
    rw [ih]
    simp only [unitsOfImage, List.map_cons, insertAll_cons, List.length_cons]
    congr 2
    omega

theorem outerStep_eq {D M : Type} (p : Params) (mt : MatcherT D M) (d : LoadedData D)
    (hmt : mt.ParallelArrays d) (n : Nat) (sched : Nat → List Int → List Int)
    (s : MatchState) (i : Nat) :
    outerStep p mt d n sched s i =
      some { map_PutativesMatches :=
               insertAll (unitsOfImage p mt d i (sched i (innerRange n p.mPairRadius i)))
                 s.map_PutativesMatches
             progress := s.progress + (sched i (innerRange n p.mPairRadius i)).length } := by
  unfold outerStep
  exact innerLoop_eq p mt d hmt i _ s

theorem outerLoop_eq {D M : Type} (p : Params) (mt : MatcherT D M) (d : LoadedData D)
    (hmt : mt.ParallelArrays d) (n : Nat) (sched : Nat → List Int → List Int)
    (is : List Nat) (s : MatchState) :
    is.foldlM (outerStep p mt d n sched) s =
      some { map_PutativesMatches := insertAll (unitsOfRun p mt d n sched is)
               s.map_PutativesMatches
             progress := s.progress + (unitsOfRun p mt d n sched is).length } := by
  induction is generalizing s with
  | nil => simp [unitsOfRun, insertAll_nil]
  | cons i is ih =>
    rw [List.foldlM_cons, outerStep_eq p mt d hmt]
    simp only [Option.some_bind, Option.bind_eq_bind]
    rw [ih]
    simp only [unitsOfRun, List.flatMap_cons, insertAll_append, List.length_append]
    congr 2
    simp only [unitsOfImage, List.length_map]
    omega

/-- With parallel arrays `Match` returns: its table is the given one after the insertion
of the entries of the units in execution order, and its progress is their number. -/
theorem MatchSched_eq {D M : Type} (p : Params) (mt : MatcherT D M) (d : LoadedData D)
    (hmt : mt.ParallelArrays d) (n : Nat) (sched : Nat → List Int → List Int)
    (T : PairWiseMatches) :
    MatchSched p mt d n sched T =
      some { map_PutativesMatches := insertAll (unitsOfRun p mt d n sched (outerRange n)) T
             progress := (unitsOfRun p mt d n sched (outerRange n)).length } := by
  unfold MatchSched
  rw [outerLoop_eq p mt d hmt]
  simp

theorem keys_unitsOfRun_id {D M : Type} (p : Params) (mt : MatcherT D M) (d : LoadedData D)
    (n : Nat) :
    keys (unitsOfRun p mt d n (fun _ js => js) (outerRange n)) =
      processedPairs n p.mPairRadius := by
  unfold keys unitsOfRun processedPairs unitsOfImage
  rw [List.map_flatMap]
  apply List.flatMap_congr
  intro i _
  rw [List.map_map]
  rfl

theorem unitsOfRun_perm {D M : Type} (p : Params) (mt : MatcherT D M) (d : LoadedData D)
    (n : Nat) (sched : Nat → List Int → List Int)
    (hs : ∀ i, (sched i (innerRange n p.mPairRadius i)).Perm (innerRange n p.mPairRadius i))
    (is : List Nat) :
    (unitsOfRun p mt d n sched is).Perm (unitsOfRun p mt d n (fun _ js => js) is) := by
  induction is with
  | nil => exact List.Perm.refl _
  | cons i is ih =>
    simp only [unitsOfRun, List.flatMap_cons]
    apply List.Perm.append
    · unfold unitsOfImage
      exact (hs i).map _
    · exact ih

/-- The entry of the first unit with key `(i, j)` among those of a run in source order. -/
theorem find_unitsOfRun {D M : Type} (p : Params) (mt : MatcherT D M) (d : LoadedData D)
    (n : Nat) (hn : n < 2 ^ 31) (hr0 : 0 ≤ p.mPairRadius) (hr : p.mPairRadius < 2 ^ 31)
    (i j : Nat) :
    find (i, j) (unitsOfRun p mt d n (fun _ js => js) (outerRange n)) =
      if (i, j) ∈ processedPairs n p.mPairRadius then some (unitValue p mt d i (j : Int))
      else none := by
  have hgen : ∀ us : PairWiseMatches,
      (∀ e ∈ us, ∃ a b : Nat, e.1 = (a, b) ∧ e.2 = unitValue p mt d a (b : Int)) →
      find (i, j) us = if (i, j) ∈ keys us then some (unitValue p mt d i (j : Int))
        else none := by
    intro us
    induction us with
    | nil => intro _; simp [find, keys]
    | cons e us ih =>
      intro h
      obtain ⟨k, v⟩ := e
      obtain ⟨a, b, e1, e2⟩ := h (k, v) (by simp)
      simp only at e1 e2
      have ih' := ih (fun e he => h e (by simp [he]))
      simp only [find, keys, List.map_cons, List.mem_cons]
      by_cases hk : (i, j) = k
      · rw [if_pos hk, if_pos (Or.inl hk), e2]
        rw [e1] at hk
        simp only [Prod.mk.injEq] at hk
        rw [hk.1, hk.2]
      · rw [if_neg hk, ih']
        simp only [keys, hk, false_or]
  rw [hgen, keys_unitsOfRun_id]
  intro e he
  unfold unitsOfRun unitsOfImage outerRange at he
  simp only [List.mem_flatMap, List.mem_range, List.mem_map] at he
  obtain ⟨a, ha, jj, hjj, rfl⟩ := he
  rw [innerRange_eq n p.mPairRadius a hn ha hr0 hr] at hjj
  simp only [List.mem_map, List.mem_range] at hjj
  obtain ⟨t, ht, rfl⟩ := hjj
  have hw := window_le n p.mPairRadius.toNat a
  refine ⟨a, a + 1 + t, ?_, ?_⟩
  · show pairKey a ((a + 1 + t : Nat) : Int) = (a, a + 1 + t)
    unfold pairKey
    rw [toSizeT_ofNat _ (by omega)]
  · simp only

/-! ## The number of processed pairs -/

theorem length_flatMap_range (n : Nat) (f : Nat → List (Nat × Nat)) :
    ((List.range n).flatMap f).length = ∑ i in Finset.range n, (f i).length := by
  induction n with
  | zero => simp
  | succ n ih =>
    rw [List.range_succ, List.flatMap_append, List.length_append, ih, Finset.sum_range_succ]
    simp

theorem length_processedPairs (n : Nat) (r : Int) (hn : n < 2 ^ 31)
    (hr0 : 0 ≤ r) (hr : r < 2 ^ 31) :
    (processedPairs n r).length =
      ∑ i in Finset.range n, (window n r.toNat i - (i + 1)) := by
  rw [processedPairs_eq n r hn hr0 hr, length_flatMap_range]
  apply Finset.sum_congr rfl
  intro i _
  simp

theorem sum_window_reflect (n r : Nat) :
    ∑ i in Finset.range n, (window n r i - (i + 1)) =
      ∑ j in Finset.range n, (if r = 0 then j else min j r) := by
  rw [← Finset.sum_range_reflect (fun j => if r = 0 then j else min j r) n]
  apply Finset.sum_congr rfl
  intro i hi
  have hi' := Finset.mem_range.1 hi
  unfold window
  split <;> omega

theorem two_mul_sum_id (n : Nat) : 2 * ∑ j in Finset.range n, j + n = n * n := by
  induction n with
  | zero => simp
  | succ n ih =>
    rw [Finset.sum_range_succ]
    have : (n + 1) * (n + 1) = n * n + 2 * n + 1 := by ring
    omega

theorem two_mul_sum_min_le (r n : Nat) (h : n ≤ r) :
    2 * ∑ j in Finset.range n, min j r + n = n * n := by
  have : ∑ j in Finset.range n, min j r = ∑ j in Finset.range n, j := by
    apply Finset.sum_congr rfl
    intro j hj
    have := Finset.mem_range.1 hj
    omega
  rw [this]
  exact two_mul_sum_id n

theorem two_mul_sum_min_ge (r n : Nat) (h : r ≤ n) :
    2 * ∑ j in Finset.range n, min j r + r * r + r = 2 * r * n := by
  induction n, h using Nat.le_induction with
  | base =>
    have := two_mul_sum_min_le r r (le_refl r)
    have e : 2 * r * r = r * r + r * r := by ring
    omega
  | succ n hrn ih =>
    rw [Finset.sum_range_succ]
    have hm : min n r = r := by omega
    rw [hm]
    have e : 2 * r * (n + 1) = 2 * r * n + 2 * r := by ring
    omega

/-- The number of pairs of a run with radius `0`. -/
theorem length_processedPairs_zero (n : Nat) (hn : n < 2 ^ 31) :
    (processedPairs n 0).length = n * (n - 1) / 2 := by
  rw [length_processedPairs n 0 hn (le_refl 0) (by norm_num), Int.toNat_zero,
    sum_window_reflect]
  simp only [if_true]
  have h := two_mul_sum_id n
  have e : n * n = n * (n - 1) + n := by
    cases n with
    | zero => rfl
    | succ m => simp only [Nat.add_sub_cancel]; ring
  omega

/-- The number of pairs of a run with a positive radius smaller than the number of
images. -/
theorem length_processedPairs_pos (n : Nat) (r : Int) (hn : n < 2 ^ 31)
    (hr0 : 0 < r) (hrn : r < n) :
    ((processedPairs n r).length : Int) = r * n - r * (r + 1) / 2 := by
  rw [length_processedPairs n r hn (le_of_lt hr0) (by omega), sum_window_reflect]
  have hne : r.toNat ≠ 0 := by omega
  simp only [if_neg hne]
  have h := two_mul_sum_min_ge r.toNat n (by omega)
  generalize ∑ j in Finset.range n, min j r.toNat = S at h
  have hr : r = (r.toNat : Int) := by omega
  generalize r.toNat = k at h hr hne
  subst hr
  have h' : (2 : Int) * S + k * k + k = 2 * k * n := by exact_mod_cast h
  have hk : (k : Int) * (k + 1) = k * k + k := by ring
  have hdiv : (k : Int) * (k + 1) / 2 = (k : Int) * n - S := by
    rw [hk]
    have : (k : Int) * k + k = 2 * ((k : Int) * n - S) := by linarith
    rw [this]
    exact Int.mul_ediv_cancel_left _ (by norm_num)
  rw [hdiv]; ring

/-! ## Facts about the sample matcher -/

theorem strictMatcher_parallel (counts : Nat → Nat) (h : ∀ k, counts k < 2 ^ 63) :
    strictMatcher.ParallelArrays (dataOfCounts counts) := by
  intro i j
  have hj := h j
  unfold strictMatcher dataOfCounts
  simp only [List.length_map, List.length_range]
  split
  · simp
  · simp only [List.length_flatten, List.map_replicate, List.length_cons, List.length_nil,
      List.sum_replicate, smul_eq_mul, le_refl, true_and]
    omega

/-! ## `Match` as a whole -/

theorem length_unitsOfRun {D M : Type} (p : Params) (mt : MatcherT D M) (d : LoadedData D)
    (n : Nat) :
    (unitsOfRun p mt d n (fun _ js => js) (outerRange n)).length =
      (processedPairs n p.mPairRadius).length := by
  rw [← keys_unitsOfRun_id p mt d n]
  unfold keys
  rw [List.length_map]

/-- With parallel arrays `Match` returns; its progress is the number of processed pairs. -/
theorem Match_eq {D M : Type} (p : Params) (mt : MatcherT D M) (d : LoadedData D)
    (hmt : mt.ParallelArrays d) (n : Nat) (T : PairWiseMatches) :
    Match p mt d n T =
      some { map_PutativesMatches :=
               insertAll (unitsOfRun p mt d n (fun _ js => js) (outerRange n)) T
             progress := (processedPairs n p.mPairRadius).length } := by
  unfold Match
  rw [MatchSched_eq p mt d hmt, length_unitsOfRun]

/-- The entry of `(i, j)` after `Match`: the one of the given table, or else the sequence
of the unit `(i, j)` when the loops process this pair. -/
theorem find_Match {D M : Type} (p : Params) (mt : MatcherT D M) (d : LoadedData D)
    (n : Nat) (hn : n < 2 ^ 31) (hr0 : 0 ≤ p.mPairRadius) (hr : p.mPairRadius < 2 ^ 31)
    (T : PairWiseMatches) (i j : Nat) :
    find (i, j) (insertAll (unitsOfRun p mt d n (fun _ js => js) (outerRange n)) T) =
      match find (i, j) T with
      | some w => some w
      | none =>
        if (i, j) ∈ processedPairs n p.mPairRadius then some (unitValue p mt d i (j : Int))
        else none := by
  rw [find_insertAll, find_unitsOfRun p mt d n hn hr0 hr]

/-- Claim C3. Starting from an empty table, and for a number of images `n` and a radius
`mPairRadius ≥ 0` that an `int` holds, `Match` returns and the keys of its table are
exactly the pairs `(i, j)` with `i < j < n` and, for a positive radius, `j ≤ i + mPairRadius`;
hence the table never holds both `(i, j)` and `(j, i)`. -/
theorem match_keys_exact {D M : Type} (p : Params) (mt : MatcherT D M) (d : LoadedData D)
    (n : Nat) (hmt : mt.ParallelArrays d) (hn : n < 2 ^ 31) (hr0 : 0 ≤ p.mPairRadius)
    (hr : p.mPairRadius < 2 ^ 31) :
    ∃ s, Match p mt d n [] = some s ∧
      (∀ i j : Nat, (i, j) ∈ keys s.map_PutativesMatches ↔
        i < j ∧ j < n ∧ (0 < p.mPairRadius → (j : Int) ≤ i + p.mPairRadius)) ∧
      (∀ i j : Nat, (i, j) ∈ keys s.map_PutativesMatches →
        (j, i) ∉ keys s.map_PutativesMatches) := by
  refine ⟨_, Match_eq p mt d hmt n [], ?_⟩
  have key : ∀ i j : Nat,
      (i, j) ∈ keys (insertAll (unitsOfRun p mt d n (fun _ js => js) (outerRange n)) []) ↔
        i < j ∧ j < n ∧ (0 < p.mPairRadius → (j : Int) ≤ i + p.mPairRadius) := by
    intro i j
    rw [mem_keys_iff, find_Match p mt d n hn hr0 hr, ← mem_processedPairs n _ hn hr0 hr]
    simp only [find]
    split <;> simp [*]
  refine ⟨key, ?_⟩
  intro i j h1 h2
  have a := (key i j).1 h1
  have b := (key j i).1 h2
  omega

/-- A sample run: 5 images of 3 features each, radius 2. -/
theorem match_keys_exact_witness :
    strictMatcher.ParallelArrays (dataOfCounts (fun _ => 3)) ∧ (5 : Nat) < 2 ^ 31 ∧
    (0 : Int) ≤ (Params.mk (4 / 5) 2).mPairRadius ∧
    (Params.mk (4 / 5) 2).mPairRadius < 2 ^ 31 ∧
    ∃ s, Match (Params.mk (4 / 5) 2) strictMatcher (dataOfCounts (fun _ => 3)) 5 [] = some s ∧
      (∀ i j : Nat, (i, j) ∈ keys s.map_PutativesMatches ↔
        i < j ∧ j < 5 ∧ (0 < (Params.mk (4 / 5) 2).mPairRadius →
          (j : Int) ≤ i + (Params.mk (4 / 5) 2).mPairRadius)) ∧
      (∀ i j : Nat, (i, j) ∈ keys s.map_PutativesMatches →
        (j, i) ∉ keys s.map_PutativesMatches) :=
  ⟨strictMatcher_parallel _ (fun _ => by norm_num), by norm_num, by norm_num, by norm_num,
    match_keys_exact (Params.mk (4 / 5) 2) strictMatcher (dataOfCounts (fun _ => 3)) 5
      (strictMatcher_parallel _ (fun _ => by norm_num)) (by norm_num) (by norm_num)
      (by norm_num)⟩

theorem nodup_keys_unitsOfRun {D M : Type} (p : Params) (mt : MatcherT D M)
    (d : LoadedData D) (n : Nat) (hn : n < 2 ^ 31) (hr0 : 0 ≤ p.mPairRadius)
    (hr : p.mPairRadius < 2 ^ 31) :
    (keys (unitsOfRun p mt d n (fun _ js => js) (outerRange n))).Nodup := by
  rw [keys_unitsOfRun_id]
  exact nodup_processedPairs n _ hn hr0 hr

/-- Claim C4. Starting from an empty table, and for a number of images `n` and a radius
that an `int` holds, `Match` returns a table of exactly `n (n - 1) / 2` entries when
`mPairRadius = 0` and of exactly `r n - r (r + 1) / 2` entries when `mPairRadius = r > 0`
and `n > r`; every processed pair counts, whatever its sequence is. -/
theorem match_entry_count {D M : Type} (p : Params) (mt : MatcherT D M) (d : LoadedData D)
    (n : Nat) (hmt : mt.ParallelArrays d) (hn : n < 2 ^ 31) :
    ∃ s, Match p mt d n [] = some s ∧
      (p.mPairRadius = 0 → s.map_PutativesMatches.length = n * (n - 1) / 2) ∧
      (0 < p.mPairRadius → p.mPairRadius < n →
        (s.map_PutativesMatches.length : Int) =
          p.mPairRadius * n - p.mPairRadius * (p.mPairRadius + 1) / 2) := by
  refine ⟨_, Match_eq p mt d hmt n [], ?_, ?_⟩
  · intro h0
    simp only
    rw [length_insertAll _ [] (nodup_keys_unitsOfRun p mt d n hn (by omega) (by omega))
      (fun _ _ => rfl), length_unitsOfRun, h0]
    simpa using length_processedPairs_zero n hn
  · intro hpos hlt
    simp only
    rw [length_insertAll _ [] (nodup_keys_unitsOfRun p mt d n hn (by omega) (by omega))
      (fun _ _ => rfl), length_unitsOfRun]
    simpa using length_processedPairs_pos n p.mPairRadius hn hpos hlt

/-- A sample run: 3 images, of which image 0 has no feature, radius 0; the
two pairs of image 0 have empty sequences and count. -/
theorem match_entry_count_witness :
    strictMatcher.ParallelArrays (dataOfCounts (fun k => if k = 0 then 0 else 3)) ∧
    (3 : Nat) < 2 ^ 31 ∧
    ∃ s, Match (Params.mk (4 / 5) 0) strictMatcher
        (dataOfCounts (fun k => if k = 0 then 0 else 3)) 3 [] = some s ∧
      ((Params.mk (4 / 5) 0).mPairRadius = 0 → s.map_PutativesMatches.length = 3 * (3 - 1) / 2) ∧
      (0 < (Params.mk (4 / 5) 0).mPairRadius → (Params.mk (4 / 5) 0).mPairRadius < (3 : Nat) →
        (s.map_PutativesMatches.length : Int) =
          (Params.mk (4 / 5) 0).mPairRadius * (3 : Nat) -
            (Params.mk (4 / 5) 0).mPairRadius * ((Params.mk (4 / 5) 0).mPairRadius + 1) / 2) :=
  ⟨strictMatcher_parallel _ (fun k => by split <;> norm_num), by norm_num,
    match_entry_count (Params.mk (4 / 5) 0) strictMatcher
      (dataOfCounts (fun k => if k = 0 then 0 else 3)) 3
      (strictMatcher_parallel _ (fun k => by split <;> norm_num)) (by norm_num)⟩

/-- Claim C10. `Match` changes no entry of the table it is given: with parallel arrays it
returns, and every key `k` that has an entry `v` in the given table `T` (a processed pair
or not) is a key of the returned table, with the same entry `v`. -/
theorem match_keeps_existing_entries {D M : Type} (p : Params) (mt : MatcherT D M)
    (d : LoadedData D) (n : Nat) (hmt : mt.ParallelArrays d) (T : PairWiseMatches)
    (k : Nat × Nat) (v : List IndMatch) (hk : find k T = some v) :
    ∃ s, Match p mt d n T = some s ∧ find k s.map_PutativesMatches = some v ∧
      k ∈ keys s.map_PutativesMatches := by
  refine ⟨_, Match_eq p mt d hmt n T, ?_, ?_⟩
  · simp only
    rw [find_insertAll, hk]
  · simp only
    rw [mem_keys_iff, find_insertAll, hk]
    rfl

/-- A sample run: the given table already has an entry for the
pair `(0, 1)` that the run processes. -/
theorem match_keeps_existing_entries_witness :
    strictMatcher.ParallelArrays (dataOfCounts (fun _ => 3)) ∧
    find (0, 1) [((0, 1), [IndMatch.mk 7 9])] = some [IndMatch.mk 7 9] ∧
    ∃ s, Match (Params.mk (4 / 5) 0) strictMatcher (dataOfCounts (fun _ => 3)) 3
        [((0, 1), [IndMatch.mk 7 9])] = some s ∧
      find (0, 1) s.map_PutativesMatches = some [IndMatch.mk 7 9] ∧
      (0, 1) ∈ keys s.map_PutativesMatches :=
  ⟨strictMatcher_parallel _ (fun _ => by norm_num), by decide,
    match_keeps_existing_entries (Params.mk (4 / 5) 0) strictMatcher
      (dataOfCounts (fun _ => 3)) 3 (strictMatcher_parallel _ (fun _ => by norm_num))
      [((0, 1), [IndMatch.mk 7 9])] (0, 1) [IndMatch.mk 7 9] (by decide)⟩

/-- Claim C7. For a number of images and a radius that an `int` holds, the list of the
processed pairs holds no key twice, and, starting from an empty table, `Match` returns the
same state whatever the order in which the units of each inner loop are executed. -/
theorem match_order_independent {D M : Type} (p : Params) (mt : MatcherT D M)
    (d : LoadedData D) (n : Nat) (hmt : mt.ParallelArrays d) (hn : n < 2 ^ 31)
    (hr0 : 0 ≤ p.mPairRadius) (hr : p.mPairRadius < 2 ^ 31) :
    (processedPairs n p.mPairRadius).Nodup ∧
    ∃ s, Match p mt d n [] = some s ∧
      ∀ sched : Nat → List Int → List Int,
        (∀ i, (sched i (innerRange n p.mPairRadius i)).Perm (innerRange n p.mPairRadius i)) →
        MatchSched p mt d n sched [] = some s := by
  refine ⟨nodup_processedPairs n _ hn hr0 hr, _, Match_eq p mt d hmt n [], ?_⟩
  intro sched hs
  have hperm := unitsOfRun_perm p mt d n sched hs (outerRange n)
  rw [MatchSched_eq p mt d hmt, hperm.length_eq, length_unitsOfRun,
    insertAll_perm _ _ [] hperm.symm (nodup_keys_unitsOfRun p mt d n hn hr0 hr)]

/-- A sample run: 4 images of 3 features each, radius 0. -/
theorem match_order_independent_witness :
    strictMatcher.ParallelArrays (dataOfCounts (fun _ => 3)) ∧ (4 : Nat) < 2 ^ 31 ∧
    (0 : Int) ≤ (Params.mk (4 / 5) 0).mPairRadius ∧
    (Params.mk (4 / 5) 0).mPairRadius < 2 ^ 31 ∧
    ((processedPairs 4 (Params.mk (4 / 5) 0).mPairRadius).Nodup ∧
    ∃ s, Match (Params.mk (4 / 5) 0) strictMatcher (dataOfCounts (fun _ => 3)) 4 [] = some s ∧
      ∀ sched : Nat → List Int → List Int,
        (∀ i, (sched i (innerRange 4 (Params.mk (4 / 5) 0).mPairRadius i)).Perm
          (innerRange 4 (Params.mk (4 / 5) 0).mPairRadius i)) →
        MatchSched (Params.mk (4 / 5) 0) strictMatcher (dataOfCounts (fun _ => 3)) 4 sched []
          = some s) :=
  ⟨strictMatcher_parallel _ (fun _ => by norm_num), by norm_num, by norm_num, by norm_num,
    match_order_independent (Params.mk (4 / 5) 0) strictMatcher (dataOfCounts (fun _ => 3)) 4
      (strictMatcher_parallel _ (fun _ => by norm_num)) (by norm_num) (by norm_num)
      (by norm_num)⟩

/-! ## The match-building loop and the ratio test -/

/-- Claim C9. On a non-empty list `a` of accepted indices (the accepted indices but the
last being non-negative, with their neighbour entry `2 * a[k]` inside `vec_nIndice10`),
the loop returns after `m - 1` iterations and the sequence it has built is
`(vec_nIndice10[2 * a[k]], a[k])` for `k = 0 .. m - 2`, of length `m - 1`: the last
accepted index yields no match. -/
theorem loop_drops_last_accepted (a nn : List Int) (hne : a ≠ []) (ha : a.length < 2 ^ 64)
    (hnn : nn.length < 2 ^ 64)
    (hv : ∀ x ∈ a.dropLast, 0 ≤ x ∧ 2 * x.toNat < nn.length) :
    ∃ st, buildMatches a nn = some st ∧
      st.vec_FilteredMatches =
        a.dropLast.map (fun x => IndMatch.mk (toSizeT (nn.getD (2 * x.toNat) 0)) x.toNat) ∧
      st.vec_FilteredMatches.length = a.length - 1 ∧ st.iters = a.length - 1 := by
  have hidx : ∀ x ∈ a.dropLast, toSizeT x = x.toNat ∧ sizeMul (toSizeT x) 2 = 2 * x.toNat := by
    intro x hx
    obtain ⟨h0, h1⟩ := hv x hx
    have e1 : toSizeT x = x.toNat := toSizeT_of_nonneg x h0 (by omega)
    refine ⟨e1, ?_⟩
    rw [e1, sizeMul_small _ _ (by omega)]
    omega
  obtain ⟨st, e1, e2, e3⟩ := buildMatches_spec a nn hne ha (by
    intro x hx
    rw [(hidx x hx).2]
    exact (hv x hx).2)
  have e2' : st.vec_FilteredMatches =
      a.dropLast.map (fun x => IndMatch.mk (toSizeT (nn.getD (2 * x.toNat) 0)) x.toNat) := by
    rw [e2]
    apply List.map_congr_left
    intro x hx
    rw [(hidx x hx).2, (hidx x hx).1]
  refine ⟨st, e1, e2', ?_, e3⟩
  rw [e2', List.length_map, List.length_dropLast]

/-- A sample run: three accepted indices give two matches. -/
theorem loop_drops_last_accepted_witness :
    ([0, 2, 3] : List Int) ≠ [] ∧ ([0, 2, 3] : List Int).length < 2 ^ 64 ∧
    ([5, 7, 1, 1, 6, 1, 8, 9] : List Int).length < 2 ^ 64 ∧
    (∀ x ∈ ([0, 2, 3] : List Int).dropLast,
      0 ≤ x ∧ 2 * x.toNat < ([5, 7, 1, 1, 6, 1, 8, 9] : List Int).length) ∧
    ∃ st, buildMatches [0, 2, 3] [5, 7, 1, 1, 6, 1, 8, 9] = some st ∧
      st.vec_FilteredMatches =
        ([0, 2, 3] : List Int).dropLast.map (fun x =>
          IndMatch.mk (toSizeT (([5, 7, 1, 1, 6, 1, 8, 9] : List Int).getD (2 * x.toNat) 0))
            x.toNat) ∧
      st.vec_FilteredMatches.length = ([0, 2, 3] : List Int).length - 1 ∧
      st.iters = ([0, 2, 3] : List Int).length - 1 :=
  ⟨by decide, by decide, by decide, by decide,
    loop_drops_last_accepted [0, 2, 3] [5, 7, 1, 1, 6, 1, 8, 9] (by decide) (by decide)
      (by decide) (by decide)⟩

/-- Claim C1, evaluated on the code: with the distances `[1, 4, 1, 6/5]` and the ratio
`4/5`, query 0 alone passes the ratio test, and from this single accepted index the loop
builds no match at all, where the claim has the match `(5, 0)`. -/
theorem single_accepted_index_builds_no_match :
    ratioTest (Params.mk (4 / 5) 0) [1, 4, 1, 6 / 5] = [0] ∧
    buildMatches [0] [5, 7, 3, 2] =
      some { vec_FilteredMatches := [], iters := 0, reads := [] } := by
  constructor
  · simp [ratioTest, NNdistanceRatio, Square, List.range_succ, List.filter]
    norm_num
  · decide

/-- Claim C2. The threshold that `Match` hands to `NNdistanceRatio` is the square of
`fDistRatio`, so a query with the squared distances `d1 ≤ d2`, `d2 > 0`, is accepted
exactly when `d1 / d2 < fDistRatio ^ 2`, that is when `d1 < fDistRatio ^ 2 * d2`. -/
theorem ratio_threshold_is_squared (p : Params) (d1 d2 : ℚ) (h2 : 0 < d2) (_h1 : d1 ≤ d2) :
    (∀ dist, ratioTest p dist = NNdistanceRatio dist 2 (p.fDistRatio ^ 2)) ∧
    ((0 : Int) ∈ ratioTest p [d1, d2] ↔ d1 / d2 < p.fDistRatio ^ 2) ∧
    (ratioTest p [d1, d2] = if d1 / d2 < p.fDistRatio ^ 2 then [0] else []) ∧
    (d1 / d2 < p.fDistRatio ^ 2 ↔ d1 < p.fDistRatio ^ 2 * d2) := by
  have hsq : Square p.fDistRatio = p.fDistRatio ^ 2 := by unfold Square; ring
  refine ⟨fun dist => by unfold ratioTest; rw [hsq], ?_, ?_, div_lt_iff₀ h2⟩
  · unfold ratioTest
    rw [mem_NNdistanceRatio, hsq]
    constructor
    · rintro ⟨q, hq, _, h⟩
      have : q = 0 := by omega
      subst this
      simpa using h
    · intro h
      exact ⟨0, rfl, by simp, by simpa using h⟩
  · unfold ratioTest NNdistanceRatio
    rw [hsq]
    by_cases h : d1 / d2 < p.fDistRatio ^ 2
    · simp [List.range_succ, List.filter, h]
    · simp [List.range_succ, List.filter, h]

/-- The two cases of the spec for the ratio `4/5`: the distances `1`
and `4` are accepted, the distances `1` and `6/5` are rejected. -/
theorem ratio_threshold_is_squared_witness :
    ((0 : ℚ) < 4 ∧ (1 : ℚ) ≤ 4 ∧ ratioTest (Params.mk (4 / 5) 0) [1, 4] = [0]) ∧
    ((0 : ℚ) < 6 / 5 ∧ (1 : ℚ) ≤ 6 / 5 ∧ ratioTest (Params.mk (4 / 5) 0) [1, 6 / 5] = []) :=
  ⟨⟨by norm_num, by norm_num,
      (ratio_threshold_is_squared (Params.mk (4 / 5) 0) 1 4 (by norm_num) (by norm_num)).2.2.1.trans
        (if_pos (by norm_num))⟩,
    ⟨by norm_num, by norm_num,
      (ratio_threshold_is_squared (Params.mk (4 / 5) 0) 1 (6 / 5) (by norm_num)
        (by norm_num)).2.2.1.trans (if_neg (by norm_num))⟩⟩

/-! ## Pairs without an accepted query, and failures of the matcher -/

theorem reportSuccess_parallel {D M : Type} (mt : MatcherT D M) (d : LoadedData D)
    (hmt : mt.ParallelArrays d) : mt.reportSuccess.ParallelArrays d := by
  intro i j
  exact hmt i j

theorem unitValue_reportSuccess {D M : Type} (p : Params) (mt : MatcherT D M)
    (d : LoadedData D) (i : Nat) (j : Int) :
    unitValue p mt.reportSuccess d i j = unitValue p mt d i j := by
  unfold unitValue pairUnit
  simp only [Option.map_map]
  rfl

theorem unitsOfRun_reportSuccess {D M : Type} (p : Params) (mt : MatcherT D M)
    (d : LoadedData D) (n : Nat) (is : List Nat) :
    unitsOfRun p mt.reportSuccess d n (fun _ js => js) is =
      unitsOfRun p mt d n (fun _ js => js) is := by
  unfold unitsOfRun unitsOfImage
  simp only [unitValue_reportSuccess]

/-- Claim C5, evaluated on the code: image 0 has a single descriptor, `Build` and
`SearchNeighbours` both report a failure, and `Match` nevertheless completes, with an
entry for the pair `(0, 1)` and one increment of the progress display. -/
theorem insufficient_neighbours_not_surfaced :
    ((dataOfCounts (fun k => if k = 0 then 1 else 3)).map_Feat 0).length < 2 ∧
    (strictMatcher.Build ((dataOfCounts (fun k => if k = 0 then 1 else 3)).map_Desc 0)
      ((dataOfCounts (fun k => if k = 0 then 1 else 3)).map_Feat 0).length).1 = false ∧
    (strictMatcher.SearchNeighbours
      (builtIndex strictMatcher (dataOfCounts (fun k => if k = 0 then 1 else 3)) 0)
      ((dataOfCounts (fun k => if k = 0 then 1 else 3)).map_Desc 1)
      ((dataOfCounts (fun k => if k = 0 then 1 else 3)).map_Feat 1).length 2).1 = false ∧
    Match (Params.mk (4 / 5) 0) strictMatcher
      (dataOfCounts (fun k => if k = 0 then 1 else 3)) 2 [] =
      some { map_PutativesMatches := [((0, 1), [])], progress := 1 } := by
  decide

/-- Claim C5, as amended. `Match` has no failure channel: it looks at neither the status
of `Build` nor that of `SearchNeighbours`. With parallel arrays it returns, however few
descriptors a left image has; its table from an empty one has an entry for every pair
`(i, j)` of the window; and the state it returns is the one it returns when both statuses
report success. -/
theorem match_ignores_matcher_status {D M : Type} (p : Params) (mt : MatcherT D M)
    (d : LoadedData D) (n : Nat) (hmt : mt.ParallelArrays d) (hn : n < 2 ^ 31)
    (hr0 : 0 ≤ p.mPairRadius) (hr : p.mPairRadius < 2 ^ 31) :
    ∃ s, Match p mt d n [] = some s ∧
      Match p mt.reportSuccess d n [] = some s ∧
      ∀ i j : Nat, i < j → j < n → (0 < p.mPairRadius → (j : Int) ≤ i + p.mPairRadius) →
        find (i, j) s.map_PutativesMatches = some (unitValue p mt d i (j : Int)) := by
  refine ⟨_, Match_eq p mt d hmt n [], ?_, ?_⟩
  · rw [Match_eq p mt.reportSuccess d (reportSuccess_parallel mt d hmt) n [],
      unitsOfRun_reportSuccess]
  · intro i j hij hjn hw
    simp only
    rw [find_Match p mt d n hn hr0 hr]
    have hmem : (i, j) ∈ processedPairs n p.mPairRadius :=
      (mem_processedPairs n _ hn hr0 hr i j).2 ⟨hij, hjn, hw⟩
    simp only [find, if_pos hmem]

/-- A sample run: 2 images, of which image 0 has a single
descriptor. -/
theorem match_ignores_matcher_status_witness :
    strictMatcher.ParallelArrays (dataOfCounts (fun k => if k = 0 then 1 else 3)) ∧
    (2 : Nat) < 2 ^ 31 ∧ (0 : Int) ≤ (Params.mk (4 / 5) 0).mPairRadius ∧
    (Params.mk (4 / 5) 0).mPairRadius < 2 ^ 31 ∧
    ∃ s, Match (Params.mk (4 / 5) 0) strictMatcher
        (dataOfCounts (fun k => if k = 0 then 1 else 3)) 2 [] = some s ∧
      Match (Params.mk (4 / 5) 0) strictMatcher.reportSuccess
        (dataOfCounts (fun k => if k = 0 then 1 else 3)) 2 [] = some s ∧
      ∀ i j : Nat, i < j → j < 2 →
        (0 < (Params.mk (4 / 5) 0).mPairRadius →
          (j : Int) ≤ i + (Params.mk (4 / 5) 0).mPairRadius) →
        find (i, j) s.map_PutativesMatches =
          some (unitValue (Params.mk (4 / 5) 0) strictMatcher
            (dataOfCounts (fun k => if k = 0 then 1 else 3)) i (j : Int)) :=
  ⟨strictMatcher_parallel _ (fun k => by split <;> norm_num), by norm_num, by norm_num,
    by norm_num,
    match_ignores_matcher_status (Params.mk (4 / 5) 0) strictMatcher
      (dataOfCounts (fun k => if k = 0 then 1 else 3)) 2
      (strictMatcher_parallel _ (fun k => by split <;> norm_num)) (by norm_num) (by norm_num)
      (by norm_num)⟩

/-! ## The size of the progress display -/

/-- Claim C8, evaluated on the code: for 2 images and the radius 3 the loops process the
one pair `(0, 1)` and increment the progress display once, while `iterations` is `0`. -/
theorem iterations_miscounts_small_collection :
    iterations 2 3 = 0 ∧ processedPairs 2 3 = [(0, 1)] ∧
    ∃ s, Match (Params.mk (4 / 5) 3) strictMatcher (dataOfCounts (fun _ => 3)) 2 [] = some s ∧
      s.progress = 1 :=
  ⟨by decide, by decide, _,
    Match_eq (Params.mk (4 / 5) 3) strictMatcher (dataOfCounts (fun _ => 3))
      (strictMatcher_parallel _ (fun _ => by norm_num)) 2 [], by decide⟩

theorem tdiv_two_natCast (a : Nat) : Int.tdiv (a : Int) 2 = ((a / 2 : Nat) : Int) := by
  rw [Int.tdiv_eq_ediv (Int.ofNat_nonneg a) (by norm_num)]
  norm_cast

/-- Where `iterations` is right: for the radius `0`, and for a positive radius that does
not exceed the number of images, it is the number of processed pairs, as long as this
number is one that an `int` holds. -/
theorem iterations_eq_processed_count (n : Nat) (r : Int) (hn : n < 2 ^ 31) (hr0 : 0 ≤ r)
    (hrn : r ≤ n) (hc : (processedPairs n r).length < 2 ^ 31) :
    iterations n r = ((processedPairs n r).length : Int) := by
  have hr : r < 2 ^ 31 := by omega
  rw [length_processedPairs n r hn hr0 hr, sum_window_reflect] at hc ⊢
  unfold iterations
  by_cases h0 : r = 0
  · subst h0
    simp only [if_true, Int.toNat_zero] at hc ⊢
    have hs := two_mul_sum_id n
    generalize ∑ j in Finset.range n, j = S at hs hc
    have hprod : sizeMul n (sizeSub n 1) / 2 = S := by
      rcases Nat.eq_zero_or_pos n with h | h
      · subst h
        simp only [sizeMul, Nat.zero_mul, Nat.zero_mod, Nat.zero_div]
        omega
      · rw [sizeSub_small n 1 (by omega) (by omega)]
        have e : n * (n - 1) + n = n * n := by
          obtain ⟨m, rfl⟩ : ∃ m, n = m + 1 := ⟨n - 1, by omega⟩
          simp only [Nat.add_sub_cancel]; ring
        rw [sizeMul_small _ _ (by omega)]
        omega
    rw [hprod]
    exact toInt32_ofNat S hc
  · have hk : r = (r.toNat : Int) := by omega
    have hkne : r.toNat ≠ 0 := by omega
    generalize r.toNat = k at hk hkne hc
    subst hk
    rw [if_neg h0]
    simp only [if_neg hkne] at hc ⊢
    have hkn : k ≤ n := by exact_mod_cast hrn
    have hs := two_mul_sum_min_ge k n hkn
    generalize ∑ j in Finset.range n, min j k = S at hs hc
    have hk31 : k < 2 ^ 31 := by omega
    have hkk : k * k < 2 ^ 62 := by nlinarith
    have htd : Int.tdiv (((k : Int) + 1) * k) 2 = (((k + 1) * k / 2 : Nat) : Int) := by
      rw [← tdiv_two_natCast]; push_cast; rfl
    have hmul : (k + 1) * k = k * k + k := by ring
    rw [htd, toSizeT_ofNat _ (by omega), toSizeT_ofNat k (by omega),
      sizeSub_small n k hkn (by omega)]
    have hval : sizeAdd ((k + 1) * k / 2) (sizeMul (sizeSub (n - k) 1) k) = S := by
      rcases Nat.eq_or_lt_of_le hkn with h | h
      · subst h
        have hsub : sizeSub (k - k) 1 = 2 ^ 64 - 1 := by
          rw [Nat.sub_self]; decide
        rw [hsub]
        have hm : sizeMul (2 ^ 64 - 1) k = 2 ^ 64 - k := by
          unfold sizeMul
          have : (2 ^ 64 - 1) * k = (2 ^ 64 - k) + (k - 1) * 2 ^ 64 := by
            obtain ⟨m, rfl⟩ : ∃ m, k = m + 1 := ⟨k - 1, by omega⟩
            simp only [Nat.add_sub_cancel]
            have e1 : (2 ^ 64 - 1) * (m + 1) + (m + 1) = 2 ^ 64 * (m + 1) := by
              have : (2 : Nat) ^ 64 = (2 ^ 64 - 1) + 1 := by norm_num
              nth_rewrite 2 [this]
              ring
            omega
          rw [this, Nat.add_mul_mod_self_right]
          exact Nat.mod_eq_of_lt (by omega)
        rw [hm]
        unfold sizeAdd
        have e2 : 2 * k * k = k * k + k * k := by ring
        omega
      · rw [sizeSub_small (n - k) 1 (by omega) (by omega)]
        have hnk : (n - k - 1) * k + k * k + k = n * k := by
          obtain ⟨m, rfl⟩ : ∃ m, n = k + 1 + m := ⟨n - k - 1, by omega⟩
          have : k + 1 + m - k - 1 = m := by omega
          rw [this]; ring
        have hnk2 : n * k < 2 ^ 62 := by nlinarith
        have e3 : 2 * k * n = n * k + n * k := by ring
        rw [sizeMul_small _ _ (by omega), sizeAdd_small _ _ (by omega)]
        omega
    rw [hval]
    exact toInt32_ofNat S hc

end SparseMatcher
